import Mathlib

/-!
Verification development for the room bounding-box estimator (src/project.py).

The source is shallowly embedded over exact rationals: NumPy float arrays
become `List ℚ`, `np.inf` is modelled by an explicit `Cost` type, and
`np.polyfit(x, y, 2)` (ordinary least squares for a degree-2 polynomial)
is modelled by the normal equations solved with Cramer's rule.
-/

namespace Project

/-- Access `distances[i]`; indices are always in range in the modelled runs,
out-of-range reads default to 0. -/
def sigGet (ys : List ℚ) (i : ℕ) : ℚ := ys.getD i 0

/-- Sum of `f i` for `i` in the half-open window `[s, e)`, as in the
`range(start, end)` loops of `generate_parab` and `MSE`. -/
def wsum (s e : ℕ) (f : ℕ → ℚ) : ℚ :=
  ((List.range (e - s)).map (fun j => f (s + j))).sum

/-- Power sum `Σ_{i ∈ [s,e)} i^p`, a moment of the x-vector `np.array(range(start, end))`. -/
def powS (s e p : ℕ) : ℚ := wsum s e (fun i => (i : ℚ) ^ p)

/-- Moment `Σ_{i ∈ [s,e)} i^p * distances[i]` of the y-values against the x-powers. -/
def momT (s e : ℕ) (ys : List ℚ) (p : ℕ) : ℚ :=
  wsum s e (fun i => (i : ℚ) ^ p * sigGet ys i)

/-- Determinant of a 3x3 matrix given row by row. -/
def det3 (a1 a2 a3 b1 b2 b3 c1 c2 c3 : ℚ) : ℚ :=
  a1 * (b2 * c3 - b3 * c2) - a2 * (b1 * c3 - b3 * c1) + a3 * (b1 * c2 - b2 * c1)

/-- Determinant of the normal-equation (moment) matrix of the least-squares
quadratic fit on window `[s, e)`. -/
def fitDet (s e : ℕ) : ℚ :=
  det3 (powS s e 4) (powS s e 3) (powS s e 2)
       (powS s e 3) (powS s e 2) (powS s e 1)
       (powS s e 2) (powS s e 1) (powS s e 0)

/-- Cramer numerator for the quadratic coefficient `a`. -/
def fitDa (s e : ℕ) (ys : List ℚ) : ℚ :=
  det3 (momT s e ys 2) (powS s e 3) (powS s e 2)
       (momT s e ys 1) (powS s e 2) (powS s e 1)
       (momT s e ys 0) (powS s e 1) (powS s e 0)

/-- Cramer numerator for the linear coefficient `b`. -/
def fitDb (s e : ℕ) (ys : List ℚ) : ℚ :=
  det3 (powS s e 4) (momT s e ys 2) (powS s e 2)
       (powS s e 3) (momT s e ys 1) (powS s e 1)
       (powS s e 2) (momT s e ys 0) (powS s e 0)

/-- Cramer numerator for the constant coefficient `c`. -/
def fitDc (s e : ℕ) (ys : List ℚ) : ℚ :=
  det3 (powS s e 4) (powS s e 3) (momT s e ys 2)
       (powS s e 3) (powS s e 2) (momT s e ys 1)
       (powS s e 2) (powS s e 1) (momT s e ys 0)

/-- Coefficients of a degree-2 polynomial `a*x^2 + b*x + c` (`np.poly1d`). -/
structure Quad where
  a : ℚ
  b : ℚ
  c : ℚ
deriving DecidableEq, Repr

/-- Embeds `generate_parab(start, end, distances)` (src/project.py:82-112):
the ordinary least-squares quadratic fit `np.poly1d(np.polyfit(x, y, 2))`
on `x = range(start, end)`, `y = distances[start:end]`, expressed by the
normal equations solved with Cramer's rule over exact rationals. -/
def generate_parab (s e : ℕ) (ys : List ℚ) : Quad :=
  { a := fitDa s e ys / fitDet s e
    b := fitDb s e ys / fitDet s e
    c := fitDc s e ys / fitDet s e }

/-- Evaluate a `Quad` at a point, as `parab(x)` does. -/
def evalQuad (q : Quad) (x : ℚ) : ℚ := q.a * x ^ 2 + q.b * x + q.c

/-- The value `np.sum((y - parab(x))**2)` over window `[s, e)` for a given parabola. -/
def residual (q : Quad) (s e : ℕ) (ys : List ℚ) : ℚ :=
  wsum s e (fun i => (sigGet ys i - evalQuad q (i : ℚ)) ^ 2)

/-- Embeds `MSE(start, end, distances, parab)` (src/project.py:114-145) with
`parab = generate_parab(start, end, distances)`, as `segment` calls it. -/
def MSE (s e : ℕ) (ys : List ℚ) : ℚ := residual (generate_parab s e ys) s e ys

/-- A DP table entry: `np.inf` or a finite rational. -/
inductive Cost where
  | inf : Cost
  | fin : ℚ → Cost
deriving DecidableEq, Repr

/-- `D[start, length-1] + mse` where `D[start, length-1]` may be `np.inf`. -/
def Cost.add (d : Cost) (q : ℚ) : Cost :=
  match d with
  | .inf => .inf
  | .fin a => .fin (a + q)

/-- Strict comparison `x < y` in the presence of `np.inf`
(`inf < inf` is false in NumPy, matching IEEE semantics). -/
def Cost.blt (d d' : Cost) : Bool :=
  match d, d' with
  | .inf, _ => false
  | .fin _, .inf => true
  | .fin a, .fin b => decide (a < b)

/-- Non-strict comparison `x <= y` in the presence of `np.inf`. -/
def Cost.ble (d d' : Cost) : Bool :=
  match d, d' with
  | _, .inf => true
  | .inf, .fin _ => false
  | .fin a, .fin b => decide (a ≤ b)

/-- Binary minimum keeping the first argument on ties. -/
def Cost.minC (d d' : Cost) : Cost := if Cost.blt d' d then d' else d

/-- One step of the inner `for start in range(end - length + 1)` loop of
`segment` (src/project.py:176-187): skip windows shorter than 3, otherwise
update the incumbent `(min_dist, min_index)` on strict improvement.
`m s e` stands for the `MSE` of window `[s, e)`. -/
def scanStep (Dprev : ℕ → Cost) (m : ℕ → ℕ → ℚ) (e : ℕ)
    (acc : Cost × Int) (s : ℕ) : Cost × Int :=
  if e - s < 3 then acc
  else
    let cand := (Dprev s).add (m s e)
    if Cost.blt cand acc.1 then (cand, (s : Int)) else acc

/-- The full inner loop: fold `scanStep` over `range(end - length + 1)`
starting from `(np.inf, -1)`. -/
def bestPair (Dprev : ℕ → Cost) (m : ℕ → ℕ → ℚ) (len e : ℕ) : Cost × Int :=
  (List.range (e - len + 1)).foldl (scanStep Dprev m e) (Cost.inf, -1)

/-- Column `length` of the DP table `D` of `segment` (src/project.py:163-191),
parametrised by the per-window cost function `m`. `D[0,0] = 0`, all other
entries of layer 0 are `np.inf`; layer `length` is written for
`end ∈ [length, n]` and keeps its `np.inf` initialisation elsewhere. -/
def DcolM (m : ℕ → ℕ → ℚ) (n : ℕ) : ℕ → ℕ → Cost
  | 0, e => if e = 0 then Cost.fin 0 else Cost.inf
  | l + 1, e =>
      if l + 1 ≤ e ∧ e ≤ n then (bestPair (DcolM m n l) m (l + 1) e).1 else Cost.inf

/-- Column `length` of the predecessor table `P` of `segment`;
entries keep their `-1` initialisation where the loop does not write. -/
def PcolM (m : ℕ → ℕ → ℚ) (n : ℕ) : ℕ → ℕ → Int
  | 0, _ => -1
  | l + 1, e =>
      if l + 1 ≤ e ∧ e ≤ n then (bestPair (DcolM m n l) m (l + 1) e).2 else -1

/-- NumPy row indexing into a table with `n+1` rows: a negative index `c`
selects row `n + 1 + c` (so `-1` is the last row, row `n`). -/
def rowIdx (n : ℕ) (c : Int) : ℕ :=
  if c < 0 then (c + (n + 1 : Int)).toNat else c.toNat

/-- The reconstruction loop of `segment` (src/project.py:194-198):
`for i in range(k, 0, -1): path.append(current - 1); current = P[current, i]`,
in append order. `P` is accessed with NumPy indexing (`rowIdx`). -/
def walkP (P : ℕ → ℕ → Int) (n : ℕ) : ℕ → Int → List Int
  | 0, _ => []
  | i + 1, cur => (cur - 1) :: walkP P n i (P (rowIdx n cur) (i + 1))

/-- `segment(n, k, distances)` (src/project.py:148-200) parametrised by the
per-window cost `m`: run the DP, then reconstruct from `current = P[n, k]`
and reverse. -/
def segmentM (m : ℕ → ℕ → ℚ) (n k : ℕ) : List Int :=
  (walkP (fun e l => PcolM m n l e) n k (PcolM m n k n)).reverse

/-- `segment(n, k, distances)` run with pristine caches: every window cost is
the pure `MSE` of this signal (within one call the caches are write-once and
semantically transparent, so the pure function is the per-call semantics). -/
def segment (n k : ℕ) (ys : List ℚ) : List Int :=
  segmentM (fun s e => MSE s e ys) n k

/-- `D[end, length]` of the fresh-cache run of `segment` on signal `ys`. -/
def Dtab (ys : List ℚ) (n e l : ℕ) : Cost :=
  DcolM (fun s e' => MSE s e' ys) n l e

/-- `P[end, length]` of the fresh-cache run of `segment` on signal `ys`. -/
def Ptab (ys : List ℚ) (n e l : ℕ) : Int :=
  PcolM (fun s e' => MSE s e' ys) n l e

/-- `generate_parab` reading through the process-wide `parabola_cache`
(src/project.py:8, 97-112): a hit returns the cached parabola (possibly from
an earlier signal), a miss computes from the current signal. -/
def effParab (cp : ℕ × ℕ → Option Quad) (s e : ℕ) (ys : List ℚ) : Quad :=
  match cp (s, e) with
  | some q => q
  | none => generate_parab s e ys

/-- `MSE` reading through the process-wide `mse_cache` (src/project.py:9,
130-145): a hit returns the cached value, a miss computes the residual of the
(possibly cached) parabola on the current signal. -/
def effMSE (cp : ℕ × ℕ → Option Quad) (cm : ℕ × ℕ → Option ℚ)
    (s e : ℕ) (ys : List ℚ) : ℚ :=
  match cm (s, e) with
  | some v => v
  | none => residual (effParab cp s e ys) s e ys

/-- State of `parabola_cache` after one `segment(n, k, ys)` call from empty
caches: layer 1 of the DP scans every window `[s, e)` with `s + 3 ≤ e ≤ n`,
caching its fit; no other key is touched. -/
def parabCacheAfter (ys : List ℚ) (n : ℕ) : ℕ × ℕ → Option Quad :=
  fun p => if p.1 + 3 ≤ p.2 ∧ p.2 ≤ n then some (generate_parab p.1 p.2 ys) else none

/-- State of `mse_cache` after one `segment(n, k, ys)` call from empty caches. -/
def mseCacheAfter (ys : List ℚ) (n : ℕ) : ℕ × ℕ → Option ℚ :=
  fun p => if p.1 + 3 ≤ p.2 ∧ p.2 ≤ n then some (MSE p.1 p.2 ys) else none

/-- `segment(n, k, ys)` executed with pre-populated process-wide caches
`cp` (parabolas) and `cm` (MSE values). -/
def segmentCached (cp : ℕ × ℕ → Option Quad) (cm : ℕ × ℕ → Option ℚ)
    (n k : ℕ) (ys : List ℚ) : List Int :=
  segmentM (fun s e => effMSE cp cm s e ys) n k

/-- The z-coordinate `p[2]` of a 3D point. -/
def zCoord (p : ℚ × ℚ × ℚ) : ℚ := p.2.2

/-- `np.sum(np.abs(points[:, 2] - sample_z) < threshold)`: the number of
points whose z differs from `z` by strictly less than `t`. -/
def inlierCount (points : List (ℚ × ℚ × ℚ)) (z t : ℚ) : ℕ :=
  (points.filter (fun p => decide (|zCoord p - z| < t))).length

/-- The z of the point sampled at index `i` (`sample[0, 2]`). -/
def sampleZ (points : List (ℚ × ℚ × ℚ)) (i : ℕ) : ℚ :=
  zCoord (points.getD i (0, 0, 0))

/-- One iteration of `ransac_z_fit` (src/project.py:218-228): sample a point,
count inliers, and replace the incumbent `(best_z, best_inliers)` only on a
strictly larger count. -/
def ransacStep (points : List (ℚ × ℚ × ℚ)) (t : ℚ)
    (acc : Option ℚ × ℕ) (i : ℕ) : Option ℚ × ℕ :=
  let z := sampleZ points i
  let inliers := inlierCount points z t
  if acc.2 < inliers then (some z, inliers) else acc

/-- Embeds `ransac_z_fit(points, iterations, threshold)` (src/project.py:202-230).
The randomness of `np.random.choice` is modelled by the explicit list
`samples` of drawn indices, one per iteration; `best_z` starts as `None`
(`Option.none`) and `best_inliers` as 0. -/
def ransac_z_fit (points : List (ℚ × ℚ × ℚ)) (samples : List ℕ) (t : ℚ) :
    Option ℚ × ℕ :=
  samples.foldl (ransacStep points t) (none, 0)

/-- The inlier count of each iteration's hypothesis. -/
def countsOf (points : List (ℚ × ℚ × ℚ)) (t : ℚ) (samples : List ℕ) : List ℕ :=
  samples.map (fun i => inlierCount points (sampleZ points i) t)

/-- The maximum inlier count over all iterations. -/
def maxCount (points : List (ℚ × ℚ × ℚ)) (t : ℚ) (samples : List ℕ) : ℕ :=
  (countsOf points t samples).foldl max 0

/-- The position of the first iteration attaining the maximum inlier count. -/
def firstMaxPos (points : List (ℚ × ℚ × ℚ)) (t : ℚ) (samples : List ℕ) : ℕ :=
  (countsOf points t samples).findIdx (fun c => c == maxCount points t samples)

/-- NumPy indexing into a list of `len` points: a negative index `i` selects
position `len + i`. -/
def wrapIdx (len : ℕ) (i : Int) : ℕ :=
  if i < 0 then (i + (len : Int)).toNat else i.toNat

/-- `path_points = points[path]` (src/project.py:279) with NumPy index
semantics (negative entries wrap from the end). -/
def selectPath (points : List (ℚ × ℚ × ℚ)) (path : List Int) : List (ℚ × ℚ × ℚ) :=
  path.map (fun i => points.getD (wrapIdx points.length i) (0, 0, 0))

/-- Insert into a list sorted ascending by `key`, keeping earlier elements
first on ties. -/
def insertAsc (key : ℚ × ℚ × ℚ → ℚ) (x : ℚ × ℚ × ℚ) :
    List (ℚ × ℚ × ℚ) → List (ℚ × ℚ × ℚ)
  | [] => [x]
  | y :: l => if key x ≤ key y then x :: y :: l else y :: insertAsc key x l

/-- Sort ascending by `key`, modelling `path_points[np.argsort(...)]`. -/
def sortAsc (key : ℚ × ℚ × ℚ → ℚ) (l : List (ℚ × ℚ × ℚ)) : List (ℚ × ℚ × ℚ) :=
  l.foldr (insertAsc key) []

/-- The average `(x + y) / 2` (the `avg` lambda of src/project.py:286). -/
def avg2 (x y : ℚ) : ℚ := (x + y) / 2

/-- Embeds the box construction of `bounding_box_3d` (src/project.py:282-335)
from the four path points: sort by x and by y, average the two extreme
coordinates on each side into four corners (lower-left, lower-right,
upper-right, upper-left), and emit the 4 floor vertices followed by the same
4 corners at ceiling height. -/
def bounding_box_3d_core (pp : List (ℚ × ℚ × ℚ)) (floorZ ceilingZ : ℚ) :
    List (ℚ × ℚ × ℚ) :=
  let px := sortAsc (fun p => p.1) pp
  let py := sortAsc (fun p => p.2.1) pp
  let d : ℚ × ℚ × ℚ := (0, 0, 0)
  let llx := avg2 (px.getD 0 d).1 (px.getD 1 d).1
  let rrx := avg2 (px.getD 2 d).1 (px.getD 3 d).1
  let bby := avg2 (py.getD 0 d).2.1 (py.getD 1 d).2.1
  let tty := avg2 (py.getD 2 d).2.1 (py.getD 3 d).2.1
  [(llx, bby, floorZ), (rrx, bby, floorZ), (rrx, tty, floorZ), (llx, tty, floorZ),
   (llx, bby, ceilingZ), (rrx, bby, ceilingZ), (rrx, tty, ceilingZ), (llx, tty, ceilingZ)]

/-- The candidate set the specification prescribes for the DP transition at
`(end, length)`: every `start < end` with `end - start ≥ 3`
(from the spec text, for comparison with the code's scan bound). -/
def specCands (e : ℕ) : List ℕ :=
  (List.range e).filter (fun s => decide (3 ≤ e - s))

/-- The transition cost `D[start, length-1] + MSE(start, end)` of the fresh run. -/
def costOf (ys : List ℚ) (n l e s : ℕ) : Cost :=
  (Dtab ys n s l).add (MSE s e ys)

/-- The specification's claimed value of `D[end, length]`: the minimum of the
transition costs over `specCands`. -/
def specMinVal (ys : List ℚ) (n l e : ℕ) : Cost :=
  ((specCands e).map (costOf ys n l e)).foldl Cost.minC Cost.inf

/-- The candidate set the code actually scans at `(end, length)`:
`start ∈ range(end - length + 1)` with windows shorter than 3 skipped. -/
def codeCands (len e : ℕ) : List ℕ :=
  (List.range (e - len + 1)).filter (fun s => decide (3 ≤ e - s))

/-- The minimum transition cost over the code's candidate set. -/
def minOverCost (ys : List ℚ) (n l e : ℕ) : Cost :=
  ((codeCands (l + 1) e).map (costOf ys n l e)).foldl Cost.minC Cost.inf

/-- The earliest scanned candidate attaining the minimum transition cost,
or -1 when there is none. -/
def firstAttainIdx (ys : List ℚ) (n l e : ℕ) : Int :=
  match (codeCands (l + 1) e).find?
      (fun s => decide (costOf ys n l e s = minOverCost ys n l e)) with
  | some s => (s : Int)
  | none => -1

/-- The chain of `current` values of the reconstruction loop: `chainP 0` is
`P[n, k]` and `chainP (j+1) = P[chainP j, k - j]` with NumPy row indexing. -/
def chainP (ys : List ℚ) (n k : ℕ) : ℕ → Int
  | 0 => Ptab ys n n k
  | j + 1 => Ptab ys n (rowIdx n (chainP ys n k j)) (k - j)

/-- The all-zero signal of length `n`. -/
def zsig (n : ℕ) : List ℚ := List.replicate n 0

/-- First signal of the cache-contamination scenario. -/
def sigA : List ℚ := [0, 0, 0, 0, 1, 0, 1]

/-- Second signal of the cache-contamination scenario, same length as `sigA`. -/
def sigB : List ℚ := [0, 1, 0, 1, 0, 0, 0]

/-- The incumbent-update step of the inner loop after the length-3 skip has
been factored out: adopt candidate `s` exactly on strict improvement. -/
def adoptStep (cost : ℕ → Cost) (acc : Cost × Int) (s : ℕ) : Cost × Int :=
  if Cost.blt (cost s) acc.1 then (cost s, (s : Int)) else acc

/-- Vertex `i` of a vertex list (out-of-range reads default to the origin). -/
def vtx (l : List (ℚ × ℚ × ℚ)) (i : ℕ) : ℚ × ℚ × ℚ := l.getD i (0, 0, 0)

theorem Cost.blt_irrefl (d : Cost) : Cost.blt d d = false := by
  cases d <;> simp [Cost.blt]

theorem Cost.ne_of_blt {d d' : Cost} (h : Cost.blt d d' = true) : d ≠ d' := by
  intro he
  subst he
  rw [Cost.blt_irrefl] at h
  exact Bool.noConfusion h

theorem Cost.blt_trans {a b c : Cost} (h1 : Cost.blt a b = true)
    (h2 : Cost.blt b c = true) : Cost.blt a c = true := by
  cases a <;> cases b <;> cases c <;>
    simp_all [Cost.blt]
  exact lt_trans h1 h2

theorem Cost.ble_iff_not_blt {a b : Cost} : Cost.ble a b = true ↔ Cost.blt b a = false := by
  cases a <;> cases b <;> simp [Cost.ble, Cost.blt, not_lt, le_of_lt]

theorem Cost.ble_trans {a b c : Cost} (h1 : Cost.ble a b = true)
    (h2 : Cost.ble b c = true) : Cost.ble a c = true := by
  cases a <;> cases b <;> cases c <;> simp_all [Cost.ble]
  exact le_trans h1 h2

theorem Cost.ble_of_blt {a b : Cost} (h : Cost.blt a b = true) : Cost.ble a b = true := by
  cases a <;> cases b <;> simp_all [Cost.ble, Cost.blt]
  exact le_of_lt h

theorem Cost.ble_refl (d : Cost) : Cost.ble d d = true := by
  cases d <;> simp [Cost.ble]

theorem Cost.minC_eq_or (d d' : Cost) : Cost.minC d d' = d ∨ Cost.minC d d' = d' := by
  unfold Cost.minC
  by_cases h : Cost.blt d' d = true <;> simp [h]

/-- Factoring the window-length skip out of the inner loop: folding `scanStep`
over any index list is folding `adoptStep` over the sublist of indices whose
window has at least 3 points. -/
theorem foldl_scanStep_eq_filter (Dprev : ℕ → Cost) (m : ℕ → ℕ → ℚ) (e : ℕ)
    (l : List ℕ) (acc : Cost × Int) :
    l.foldl (scanStep Dprev m e) acc
      = (l.filter (fun s => decide (3 ≤ e - s))).foldl
          (adoptStep (fun s => (Dprev s).add (m s e))) acc := by
  induction l generalizing acc with
  | nil => rfl
  | cons s t ih =>
      by_cases h : e - s < 3
      · have h' : ¬ (3 ≤ e - s) := by omega
        simp [scanStep, List.filter_cons, h, h', ih]
      · have h' : 3 ≤ e - s := by omega
        simp [scanStep, List.filter_cons, h, h', ih, adoptStep]

/-- The running minimum computed by the incumbent updates. -/
theorem adopt_foldl_fst (cost : ℕ → Cost) (l : List ℕ) (acc : Cost × Int) :
    (l.foldl (adoptStep cost) acc).1 = (l.map cost).foldl Cost.minC acc.1 := by
  induction l generalizing acc with
  | nil => rfl
  | cons s t ih =>
      by_cases h : Cost.blt (cost s) acc.1 = true <;>
        simp [adoptStep, Cost.minC, h, ih]

theorem foldl_minC_eq_or_blt (L : List Cost) (d : Cost) :
    L.foldl Cost.minC d = d ∨ Cost.blt (L.foldl Cost.minC d) d = true := by
  induction L generalizing d with
  | nil => exact Or.inl rfl
  | cons x t ih =>
      by_cases h : Cost.blt x d = true
      · rcases ih x with h' | h'
        · right
          simp [Cost.minC, h, h']
        · right
          simp only [List.foldl_cons, Cost.minC, h, if_pos]
          exact Cost.blt_trans h' h
      · simpa [Cost.minC, h] using ih d

theorem foldl_minC_le_init (L : List Cost) (d : Cost) :
    Cost.ble (L.foldl Cost.minC d) d = true := by
  rcases foldl_minC_eq_or_blt L d with h | h
  · rw [h]; exact Cost.ble_refl d
  · exact Cost.ble_of_blt h

theorem foldl_minC_le_mem (L : List Cost) (d : Cost) {x : Cost} (hx : x ∈ L) :
    Cost.ble (L.foldl Cost.minC d) x = true := by
  induction L generalizing d with
  | nil => cases hx
  | cons y t ih =>
      rcases List.mem_cons.mp hx with rfl | hx'
      · refine Cost.ble_trans (foldl_minC_le_init t (Cost.minC d x)) ?_
        by_cases hb : Cost.blt x d = true
        · simp [Cost.minC, hb, Cost.ble_refl]
        · simp only [Cost.minC, hb, if_neg, Bool.not_eq_true, if_false]
          exact Cost.ble_iff_not_blt.mpr (Bool.eq_false_iff.mpr hb)
      · exact ih (Cost.minC d y) hx'

theorem foldl_minC_attain (L : List Cost) (d : Cost) :
    L.foldl Cost.minC d = d ∨ L.foldl Cost.minC d ∈ L := by
  induction L generalizing d with
  | nil => exact Or.inl rfl
  | cons x t ih =>
      rcases ih (Cost.minC d x) with h | h
      · rcases Cost.minC_eq_or d x with h' | h'
        · exact Or.inl (by rw [List.foldl_cons, h, h'])
        · exact Or.inr (by rw [List.foldl_cons, h, h']; exact List.mem_cons_self x t)
      · exact Or.inr (List.mem_cons_of_mem x h)

/-- The incumbent index after the scan: unchanged when nothing improved on the
initial value, otherwise the first index attaining the running minimum. -/
theorem adopt_foldl_snd (cost : ℕ → Cost) (l : List ℕ) (acc : Cost × Int) :
    ((l.map cost).foldl Cost.minC acc.1 = acc.1 →
        (l.foldl (adoptStep cost) acc).2 = acc.2) ∧
    ((l.map cost).foldl Cost.minC acc.1 ≠ acc.1 →
        ∃ s, l.find? (fun s' => decide (cost s' = (l.map cost).foldl Cost.minC acc.1))
              = some s ∧
          (l.foldl (adoptStep cost) acc).2 = (s : Int)) := by
  induction l generalizing acc with
  | nil => exact ⟨fun _ => rfl, fun h => absurd rfl h⟩
  | cons s t ih =>
      by_cases hb : Cost.blt (cost s) acc.1 = true
      · -- candidate `s` is adopted; the running start value becomes `cost s`
        have hmin : Cost.minC acc.1 (cost s) = cost s := by simp [Cost.minC, hb]
        have hM : (((s :: t).map cost).foldl Cost.minC acc.1)
            = (t.map cost).foldl Cost.minC (cost s) := by
          simp [hmin]
        have hne : (t.map cost).foldl Cost.minC (cost s) ≠ acc.1 := by
          rcases foldl_minC_eq_or_blt (t.map cost) (cost s) with h | h
          · rw [h]; exact Cost.ne_of_blt hb
          · exact Cost.ne_of_blt (Cost.blt_trans h hb)
        constructor
        · intro h
          rw [hM] at h
          exact absurd h hne
        · intro _
          have hfold : (s :: t).foldl (adoptStep cost) acc
              = t.foldl (adoptStep cost) (cost s, (s : Int)) := by
            simp [adoptStep, hb]
          rcases foldl_minC_eq_or_blt (t.map cost) (cost s) with hc | hc
          · -- the head attains the overall minimum
            refine ⟨s, ?_, ?_⟩
            · rw [hM, hc, List.find?_cons]
              simp
            · rw [hfold]
              exact (ih (cost s, (s : Int))).1 (by simpa using hc)
          · -- the minimum is first attained in the tail
            have hne2 : cost s ≠ (t.map cost).foldl Cost.minC (cost s) :=
              fun h => Cost.ne_of_blt hc h.symm
            obtain ⟨s', hfind, hsnd⟩ := (ih (cost s, (s : Int))).2
              (fun h => Cost.ne_of_blt hc h)
            refine ⟨s', ?_, ?_⟩
            · rw [hM, List.find?_cons]
              simpa [hne2] using hfind
            · rw [hfold]
              exact hsnd
      · -- candidate `s` is not adopted; the accumulator is unchanged
        have hmin : Cost.minC acc.1 (cost s) = acc.1 := by simp [Cost.minC, hb]
        have hM : (((s :: t).map cost).foldl Cost.minC acc.1)
            = (t.map cost).foldl Cost.minC acc.1 := by simp [hmin]
        have hfold : (s :: t).foldl (adoptStep cost) acc
            = t.foldl (adoptStep cost) acc := by simp [adoptStep, hb]
        constructor
        · intro h
          rw [hM] at h
          rw [hfold]
          exact (ih acc).1 h
        · intro h
          rw [hM] at h
          have hne3 : cost s ≠ (t.map cost).foldl Cost.minC acc.1 := by
            intro hc
            rcases foldl_minC_eq_or_blt (t.map cost) acc.1 with h' | h'
            · exact h h'
            · rw [← hc] at h'
              exact absurd h' hb
          obtain ⟨s', hfind, hsnd⟩ := (ih acc).2 h
          refine ⟨s', ?_, ?_⟩
          · rw [hM, List.find?_cons]
            simpa [hne3] using hfind
          · rw [hfold]
            exact hsnd

theorem wsum_congr {s e : ℕ} {f g : ℕ → ℚ} (h : ∀ i, f i = g i) :
    wsum s e f = wsum s e g := by
  unfold wsum
  rw [show (fun j => f (s + j)) = (fun j => g (s + j)) from funext fun j => h (s + j)]

theorem list_map_sum_add (l : List ℕ) (f g : ℕ → ℚ) :
    (l.map (fun j => f j + g j)).sum = (l.map f).sum + (l.map g).sum := by
  induction l with
  | nil => simp
  | cons x t ih => simp [ih]; ring

theorem wsum_add (s e : ℕ) (f g : ℕ → ℚ) :
    wsum s e (fun i => f i + g i) = wsum s e f + wsum s e g := by
  unfold wsum
  exact list_map_sum_add _ _ _

theorem list_map_sum_cmul (l : List ℕ) (c : ℚ) (f : ℕ → ℚ) :
    (l.map (fun j => c * f j)).sum = c * (l.map f).sum := by
  induction l with
  | nil => simp
  | cons x t ih => simp [ih]; ring

theorem wsum_cmul (s e : ℕ) (c : ℚ) (f : ℕ → ℚ) :
    wsum s e (fun i => c * f i) = c * wsum s e f := by
  unfold wsum
  exact list_map_sum_cmul _ _ _

theorem wsum_nonneg_sq (s e : ℕ) (f : ℕ → ℚ) :
    0 ≤ wsum s e (fun i => (f i) ^ 2) := by
  unfold wsum
  refine List.sum_nonneg ?_
  intro x hx
  obtain ⟨j, _, rfl⟩ := List.mem_map.mp hx
  positivity

theorem wsum_split (s t e : ℕ) (f : ℕ → ℚ) (h1 : s ≤ t) (h2 : t ≤ e) :
    wsum s e f = wsum s t f + wsum t e f := by
  unfold wsum
  have he : e - s = (t - s) + (e - t) := by omega
  rw [he, List.range_add, List.map_append, List.sum_append]
  congr 1
  rw [List.map_map]
  rw [show ((fun j => f (s + j)) ∘ fun x => t - s + x) = (fun j => f (t + j)) from
    funext fun j => by simp only [Function.comp_apply]; congr 1; omega]

theorem wsum_three (s : ℕ) (f : ℕ → ℚ) :
    wsum s (s + 3) f = f s + f (s + 1) + f (s + 2) := by
  have h : s + 3 - s = 3 := by omega
  unfold wsum
  rw [h, show List.range 3 = [0, 1, 2] by decide]
  simp only [List.map_cons, List.map_nil, List.sum_cons, List.sum_nil, Nat.add_zero, add_zero]
  ring

theorem powS_succ (s m p : ℕ) :
    powS s (s + (m + 1)) p = powS s (s + m) p + ((s + m : ℕ) : ℚ) ^ p := by
  have h1 : s + (m + 1) - s = m + 1 := by omega
  have h2 : s + m - s = m := by omega
  simp [powS, wsum, h1, h2, List.range_succ]

theorem powS_zero_w (s m : ℕ) : powS s (s + m) 0 = (m : ℚ) := by
  induction m with
  | zero => simp [powS, wsum]
  | succ m ih =>
      rw [powS_succ, ih]
      push_cast
      ring

theorem powS_one_w (s m : ℕ) :
    powS s (s + m) 1 = (m : ℚ) * s + m * ((m : ℚ) - 1) / 2 := by
  induction m with
  | zero => simp [powS, wsum]
  | succ m ih =>
      rw [powS_succ, ih]
      push_cast
      ring

theorem powS_two_w (s m : ℕ) :
    powS s (s + m) 2 = (m : ℚ) * (s : ℚ) ^ 2 + m * ((m : ℚ) - 1) * s
      + m * ((m : ℚ) - 1) * (2 * m - 1) / 6 := by
  induction m with
  | zero => simp [powS, wsum]
  | succ m ih =>
      rw [powS_succ, ih]
      push_cast
      ring

theorem powS_three_w (s m : ℕ) :
    powS s (s + m) 3 = (m : ℚ) * (s : ℚ) ^ 3 + 3 * (m * ((m : ℚ) - 1) / 2) * (s : ℚ) ^ 2
      + (m * ((m : ℚ) - 1) * (2 * m - 1) / 2) * s + (m : ℚ) ^ 2 * ((m : ℚ) - 1) ^ 2 / 4 := by
  induction m with
  | zero => simp [powS, wsum]
  | succ m ih =>
      rw [powS_succ, ih]
      push_cast
      ring

theorem powS_four_w (s m : ℕ) :
    powS s (s + m) 4 = (m : ℚ) * (s : ℚ) ^ 4 + 2 * (m * ((m : ℚ) - 1)) * (s : ℚ) ^ 3
      + (m * ((m : ℚ) - 1) * (2 * m - 1)) * (s : ℚ) ^ 2
      + ((m : ℚ) ^ 2 * ((m : ℚ) - 1) ^ 2) * s
      + ((m : ℚ) - 1) * m * (2 * m - 1) * (3 * (m : ℚ) ^ 2 - 3 * m - 1) / 30 := by
  induction m with
  | zero => simp [powS, wsum]
  | succ m ih =>
      rw [powS_succ, ih]
      push_cast
      ring

/-- Closed form for the determinant of the least-squares moment matrix on a
window of `m` consecutive integer sample points; it does not depend on the
window's start. -/
theorem fitDet_closed (s m : ℕ) :
    fitDet s (s + m) = (m : ℚ) ^ 3 * ((m : ℚ) ^ 2 - 1) ^ 2 * ((m : ℚ) ^ 2 - 4) / 2160 := by
  simp only [fitDet, det3, powS_zero_w, powS_one_w, powS_two_w, powS_three_w, powS_four_w]
  ring

/-- With at least 3 sample points the moment matrix is nonsingular. -/
theorem fitDet_pos (s m : ℕ) (hm : 3 ≤ m) : 0 < fitDet s (s + m) := by
  rw [fitDet_closed]
  have h3 : (3 : ℚ) ≤ (m : ℚ) := by exact_mod_cast hm
  have h1 : 0 < (m : ℚ) ^ 3 := by positivity
  have h2 : 0 < ((m : ℚ) ^ 2 - 1) ^ 2 := by nlinarith
  have h4 : 0 < (m : ℚ) ^ 2 - 4 := by nlinarith
  positivity

theorem fitDet_ne_zero {s e : ℕ} (h : 3 ≤ e - s) : fitDet s e ≠ 0 := by
  have hse : s ≤ e := by omega
  obtain ⟨m, rfl⟩ := Nat.exists_eq_add_of_le hse
  have hm : 3 ≤ m := by omega
  exact ne_of_gt (fitDet_pos s m hm)

/-- Expand a weighted residual sum into moments of the window. -/
theorem wsum_resid_expand (s e p : ℕ) (ys : List ℚ) (q : Quad) :
    wsum s e (fun i => (i : ℚ) ^ p * (sigGet ys i - evalQuad q (i : ℚ)))
      = momT s e ys p
        - (q.a * powS s e (p + 2) + q.b * powS s e (p + 1) + q.c * powS s e p) := by
  have h : ∀ i : ℕ, (i : ℚ) ^ p * (sigGet ys i - evalQuad q (i : ℚ))
      = ((i : ℚ) ^ p * sigGet ys i)
        + ((-q.a) * ((i : ℚ) ^ (p + 2))
          + ((-q.b) * ((i : ℚ) ^ (p + 1)) + (-q.c) * ((i : ℚ) ^ p))) := by
    intro i
    simp only [evalQuad]
    ring
  rw [wsum_congr h, wsum_add, wsum_add, wsum_add, wsum_cmul, wsum_cmul, wsum_cmul]
  show momT s e ys p + _ = _
  unfold powS
  ring

/-- First normal equation of the least-squares fit: the residual vector is
orthogonal to the constant function. -/
theorem normalEq0 (s e : ℕ) (ys : List ℚ) (h : 3 ≤ e - s) :
    wsum s e (fun i => (i : ℚ) ^ 0
      * (sigGet ys i - evalQuad (generate_parab s e ys) (i : ℚ))) = 0 := by
  have hdet := fitDet_ne_zero h
  rw [wsum_resid_expand]
  simp only [generate_parab]
  field_simp
  simp only [fitDa, fitDb, fitDc, fitDet, det3]
  ring

/-- Second normal equation: orthogonality to the identity function. -/
theorem normalEq1 (s e : ℕ) (ys : List ℚ) (h : 3 ≤ e - s) :
    wsum s e (fun i => (i : ℚ) ^ 1
      * (sigGet ys i - evalQuad (generate_parab s e ys) (i : ℚ))) = 0 := by
  have hdet := fitDet_ne_zero h
  rw [wsum_resid_expand]
  simp only [generate_parab]
  field_simp
  simp only [fitDa, fitDb, fitDc, fitDet, det3]
  ring

/-- Third normal equation: orthogonality to the squaring function. -/
theorem normalEq2 (s e : ℕ) (ys : List ℚ) (h : 3 ≤ e - s) :
    wsum s e (fun i => (i : ℚ) ^ 2
      * (sigGet ys i - evalQuad (generate_parab s e ys) (i : ℚ))) = 0 := by
  have hdet := fitDet_ne_zero h
  rw [wsum_resid_expand]
  simp only [generate_parab]
  field_simp
  simp only [fitDa, fitDb, fitDc, fitDet, det3]
  ring

/-- Least-squares optimality: on any window with at least 3 points, the fitted
parabola has a residual no larger than any other parabola's. -/
theorem MSE_le_residual (s e : ℕ) (ys : List ℚ) (q : Quad) (h : 3 ≤ e - s) :
    MSE s e ys ≤ residual q s e ys := by
  have e0 := normalEq0 s e ys h
  have e1 := normalEq1 s e ys h
  have e2 := normalEq2 s e ys h
  have hpt : ∀ i : ℕ, (sigGet ys i - evalQuad q (i : ℚ)) ^ 2
      = (sigGet ys i - evalQuad (generate_parab s e ys) (i : ℚ)) ^ 2
        + (((2 * ((generate_parab s e ys).a - q.a))
              * ((i : ℚ) ^ 2 * (sigGet ys i - evalQuad (generate_parab s e ys) (i : ℚ))))
          + (((2 * ((generate_parab s e ys).b - q.b))
              * ((i : ℚ) ^ 1 * (sigGet ys i - evalQuad (generate_parab s e ys) (i : ℚ))))
            + (((2 * ((generate_parab s e ys).c - q.c))
              * ((i : ℚ) ^ 0 * (sigGet ys i - evalQuad (generate_parab s e ys) (i : ℚ))))
              + (evalQuad (generate_parab s e ys) (i : ℚ) - evalQuad q (i : ℚ)) ^ 2))) := by
    intro i
    simp only [evalQuad]
    ring
  have hq : residual q s e ys
      = MSE s e ys
        + ((2 * ((generate_parab s e ys).a - q.a))
            * wsum s e (fun i => (i : ℚ) ^ 2
                * (sigGet ys i - evalQuad (generate_parab s e ys) (i : ℚ)))
          + ((2 * ((generate_parab s e ys).b - q.b))
            * wsum s e (fun i => (i : ℚ) ^ 1
                * (sigGet ys i - evalQuad (generate_parab s e ys) (i : ℚ)))
            + ((2 * ((generate_parab s e ys).c - q.c))
              * wsum s e (fun i => (i : ℚ) ^ 0
                  * (sigGet ys i - evalQuad (generate_parab s e ys) (i : ℚ)))
              + wsum s e (fun i =>
                  (evalQuad (generate_parab s e ys) (i : ℚ) - evalQuad q (i : ℚ)) ^ 2)))) := by
    unfold residual MSE residual
    rw [wsum_congr hpt, wsum_add, wsum_add, wsum_add, wsum_add,
      wsum_cmul, wsum_cmul, wsum_cmul]
  have hd := wsum_nonneg_sq s e
    (fun i => evalQuad (generate_parab s e ys) (i : ℚ) - evalQuad q (i : ℚ))
  rw [hq, e0, e1, e2]
  nlinarith [hd]

/-- Shrinking a window from the left cannot increase a fixed parabola's residual. -/
theorem residual_restrict (q : Quad) (s t e : ℕ) (ys : List ℚ)
    (h1 : s ≤ t) (h2 : t ≤ e) : residual q t e ys ≤ residual q s e ys := by
  unfold residual
  rw [wsum_split s t e _ h1 h2]
  have := wsum_nonneg_sq s t (fun i => sigGet ys i - evalQuad q (i : ℚ))
  linarith

/-- Fitting a right sub-window can only give a smaller optimal residual. -/
theorem MSE_suffix_le (s t e : ℕ) (ys : List ℚ) (hst : s ≤ t) (h3 : 3 ≤ e - t) :
    MSE t e ys ≤ MSE s e ys :=
  le_trans (MSE_le_residual t e ys (generate_parab s e ys) h3)
    (residual_restrict (generate_parab s e ys) s t e ys hst (by omega))

theorem MSE_nonneg (s e : ℕ) (ys : List ℚ) : 0 ≤ MSE s e ys :=
  wsum_nonneg_sq s e _

/-- A quadratic through 3 consecutive samples is exact: its residual vanishes. -/
theorem MSE_three (s : ℕ) (ys : List ℚ) : MSE s (s + 3) ys = 0 := by
  have h3 : 3 ≤ (s + 3) - s := by omega
  have e0 := normalEq0 s (s + 3) ys h3
  have e1 := normalEq1 s (s + 3) ys h3
  have e2 := normalEq2 s (s + 3) ys h3
  rw [wsum_three] at e0 e1 e2
  push_cast at e0 e1 e2
  have hr0 : sigGet ys s - evalQuad (generate_parab s (s + 3) ys) (s : ℚ) = 0 := by
    linear_combination (((s : ℚ) + 1) * ((s : ℚ) + 2) / 2) * e0
      - ((2 * (s : ℚ) + 3) / 2) * e1 + (1 / 2) * e2
  have hr1 : sigGet ys (s + 1) - evalQuad (generate_parab s (s + 3) ys) ((s : ℚ) + 1) = 0 := by
    linear_combination (-(s : ℚ) * ((s : ℚ) + 2)) * e0 + (2 * (s : ℚ) + 2) * e1 - e2
  have hr2 : sigGet ys (s + 2) - evalQuad (generate_parab s (s + 3) ys) ((s : ℚ) + 2) = 0 := by
    linear_combination ((s : ℚ) * ((s : ℚ) + 1) / 2) * e0
      - ((2 * (s : ℚ) + 1) / 2) * e1 + (1 / 2) * e2
  show residual (generate_parab s (s + 3) ys) s (s + 3) ys = 0
  unfold residual
  rw [wsum_three]
  push_cast
  rw [hr0, hr1, hr2]
  norm_num

theorem foldl_minC_of_all_inf (L : List Cost) (d : Cost)
    (h : ∀ x ∈ L, x = Cost.inf) : L.foldl Cost.minC d = d := by
  induction L generalizing d with
  | nil => rfl
  | cons x t ih =>
      have hx : x = Cost.inf := h x (List.mem_cons_self x t)
      have hmin : Cost.minC d x = d := by
        rw [hx]; cases d <;> simp [Cost.minC, Cost.blt]
      rw [List.foldl_cons, hmin]
      exact ih d (fun y hy => h y (List.mem_cons_of_mem x hy))

/-- In the written region of the table, `D[end, length]` is the minimum
transition cost over the scanned candidates. -/
theorem Dtab_eq_minOver (ys : List ℚ) (n l e : ℕ) (h1 : l + 1 ≤ e) (h2 : e ≤ n) :
    Dtab ys n e (l + 1) = minOverCost ys n l e := by
  show DcolM (fun s e' => MSE s e' ys) n (l + 1) e = _
  rw [DcolM, if_pos ⟨h1, h2⟩]
  unfold bestPair
  rw [foldl_scanStep_eq_filter, adopt_foldl_fst]
  rfl

/-- In the written region of the table, `P[end, length]` is `-1` when every
scanned candidate is infeasible, and otherwise the earliest scanned candidate
attaining the minimum transition cost. -/
theorem Ptab_eq_firstAttain (ys : List ℚ) (n l e : ℕ) (h1 : l + 1 ≤ e) (h2 : e ≤ n) :
    Ptab ys n e (l + 1)
      = if Dtab ys n e (l + 1) = Cost.inf then (-1 : Int) else firstAttainIdx ys n l e := by
  have hD := Dtab_eq_minOver ys n l e h1 h2
  show PcolM (fun s e' => MSE s e' ys) n (l + 1) e = _
  rw [PcolM, if_pos ⟨h1, h2⟩]
  unfold bestPair
  rw [foldl_scanStep_eq_filter]
  show ((codeCands (l + 1) e).foldl (adoptStep (costOf ys n l e)) (Cost.inf, -1)).2 = _
  have hspec := adopt_foldl_snd (costOf ys n l e) (codeCands (l + 1) e) (Cost.inf, -1)
  have hM : ((codeCands (l + 1) e).map (costOf ys n l e)).foldl Cost.minC
      ((Cost.inf, (-1 : Int))).1 = minOverCost ys n l e := rfl
  by_cases hinf : minOverCost ys n l e = Cost.inf
  · rw [hD, if_pos hinf]
    exact hspec.1 (hM.trans hinf)
  · obtain ⟨s, hfind, hsnd⟩ := hspec.2 (fun hh => hinf ((hM.symm.trans hh).symm.trans rfl).symm
      )
    rw [hD, if_neg hinf, hsnd]
    unfold firstAttainIdx
    have hfind' : (codeCands (l + 1) e).find?
        (fun s' => decide (costOf ys n l e s' = minOverCost ys n l e)) = some s := hfind
    rw [hfind']

theorem mem_codeCands {s len e : ℕ} :
    s ∈ codeCands len e ↔ s < e - len + 1 ∧ 3 ≤ e - s := by
  simp [codeCands, List.mem_filter, List.mem_range]

/-- A prefix shorter than 3 points per segment cannot be decomposed:
`D[e, l] = np.inf` whenever `e < 3 l`. -/
theorem Dtab_inf_of_lt (ys : List ℚ) (n : ℕ) :
    ∀ l e, e < 3 * l → Dtab ys n e l = Cost.inf := by
  intro l
  induction l with
  | zero => intro e he; exact absurd he (by omega)
  | succ l ih =>
      intro e he
      by_cases hg : l + 1 ≤ e ∧ e ≤ n
      · rw [Dtab_eq_minOver ys n l e hg.1 hg.2]
        unfold minOverCost
        rcases foldl_minC_attain ((codeCands (l + 1) e).map (costOf ys n l e)) Cost.inf
          with h | h
        · exact h
        · obtain ⟨s, hs, hcost⟩ := List.mem_map.mp h
          have h3 : 3 ≤ e - s := (mem_codeCands.mp hs).2
          have hslt : s < 3 * l := by omega
          rw [← hcost]
          unfold costOf
          rw [ih s hslt]
          rfl
      · show DcolM _ n (l + 1) e = _
        rw [DcolM, if_neg hg]

/-- Layer 1 of the DP: the only feasible predecessor is `start = 0`, so
`D[e, 1]` is `0 + MSE(0, e)` and `P[e, 1] = 0` for every written `e ≥ 3`. -/
theorem Dtab_layer_one (ys : List ℚ) (n e : ℕ) (h3 : 3 ≤ e) (hen : e ≤ n) :
    Dtab ys n e 1 = Cost.fin (0 + MSE 0 e ys) ∧ Ptab ys n e 1 = 0 := by
  obtain ⟨e', rfl⟩ : ∃ e', e = e' + 1 := ⟨e - 1, by omega⟩
  have hc : codeCands 1 (e' + 1)
      = 0 :: ((List.range e').map Nat.succ).filter (fun s => decide (3 ≤ e' + 1 - s)) := by
    unfold codeCands
    rw [show e' + 1 - 1 + 1 = e' + 1 from by omega, List.range_succ_eq_map,
      List.filter_cons]
    simp only [decide_eq_true_eq]
    rw [if_pos (by omega)]
  have h0 : costOf ys n 0 (e' + 1) 0 = Cost.fin (0 + MSE 0 (e' + 1) ys) := rfl
  have hrest : ∀ x ∈ ((List.range e').map Nat.succ).filter
      (fun s => decide (3 ≤ e' + 1 - s)), costOf ys n 0 (e' + 1) x = Cost.inf := by
    intro x hx
    obtain ⟨j, _, rfl⟩ := List.mem_map.mp (List.mem_filter.mp hx).1
    unfold costOf
    show (DcolM _ n 0 (Nat.succ j)).add _ = _
    rw [DcolM, if_neg (Nat.succ_ne_zero j)]
    rfl
  have hm : minOverCost ys n 0 (e' + 1) = Cost.fin (0 + MSE 0 (e' + 1) ys) := by
    unfold minOverCost
    rw [hc, List.map_cons, List.foldl_cons, h0]
    rw [show Cost.minC Cost.inf (Cost.fin (0 + MSE 0 (e' + 1) ys))
        = Cost.fin (0 + MSE 0 (e' + 1) ys) from by simp [Cost.minC, Cost.blt]]
    refine foldl_minC_of_all_inf _ _ ?_
    intro x hx
    obtain ⟨s, hs, rfl⟩ := List.mem_map.mp hx
    exact hrest s hs
  have hDne : Cost.fin (0 + MSE 0 (e' + 1) ys) ≠ Cost.inf := fun hh => Cost.noConfusion hh
  constructor
  · rw [Dtab_eq_minOver ys n 0 (e' + 1) (by omega) hen]
    exact hm
  · rw [Ptab_eq_firstAttain ys n 0 (e' + 1) (by omega) hen,
      Dtab_eq_minOver ys n 0 (e' + 1) (by omega) hen, hm, if_neg hDne]
    unfold firstAttainIdx
    rw [hc, hm, List.find?_cons]
    simp [h0]

/-- The unique all-3 partition value at `(6, 2)`: `D[6, 2] = 0`, `P[6, 2] = 3`. -/
theorem Dtab_six_two (ys : List ℚ) (n : ℕ) (hn : 6 ≤ n) :
    Dtab ys n 6 2 = Cost.fin 0 ∧ Ptab ys n 6 2 = 3 := by
  have hcands : codeCands 2 6 = [0, 1, 2, 3] := by decide
  have c0 : costOf ys n 1 6 0 = Cost.inf := by
    unfold costOf; rw [Dtab_inf_of_lt ys n 1 0 (by omega)]; rfl
  have c1 : costOf ys n 1 6 1 = Cost.inf := by
    unfold costOf; rw [Dtab_inf_of_lt ys n 1 1 (by omega)]; rfl
  have c2 : costOf ys n 1 6 2 = Cost.inf := by
    unfold costOf; rw [Dtab_inf_of_lt ys n 1 2 (by omega)]; rfl
  have c3 : costOf ys n 1 6 3 = Cost.fin 0 := by
    unfold costOf
    rw [(Dtab_layer_one ys n 3 (by omega) (by omega)).1]
    show Cost.fin ((0 + MSE 0 3 ys) + MSE 3 6 ys) = _
    rw [show MSE 0 3 ys = 0 from MSE_three 0 ys,
      show MSE 3 6 ys = 0 from MSE_three 3 ys]
    norm_num
  have hm : minOverCost ys n 1 6 = Cost.fin 0 := by
    unfold minOverCost
    rw [hcands]
    simp [c0, c1, c2, c3, Cost.minC, Cost.blt]
  constructor
  · rw [Dtab_eq_minOver ys n 1 6 (by omega) hn]
    exact hm
  · rw [Ptab_eq_firstAttain ys n 1 6 (by omega) hn,
      Dtab_eq_minOver ys n 1 6 (by omega) hn, hm,
      if_neg (fun hh => Cost.noConfusion hh)]
    unfold firstAttainIdx
    rw [hcands, hm]
    simp [List.find?, c0, c1, c2, c3]

/-- The unique all-3 partition value at `(9, 3)`: `D[9, 3] = 0`, `P[9, 3] = 6`. -/
theorem Dtab_nine_three (ys : List ℚ) (n : ℕ) (hn : 9 ≤ n) :
    Dtab ys n 9 3 = Cost.fin 0 ∧ Ptab ys n 9 3 = 6 := by
  have hcands : codeCands 3 9 = [0, 1, 2, 3, 4, 5, 6] := by decide
  have cinf : ∀ s, s < 6 → costOf ys n 2 9 s = Cost.inf := by
    intro s hs
    unfold costOf
    rw [Dtab_inf_of_lt ys n 2 s (by omega)]
    rfl
  have c6 : costOf ys n 2 9 6 = Cost.fin 0 := by
    unfold costOf
    rw [(Dtab_six_two ys n (by omega)).1]
    show Cost.fin (0 + MSE 6 9 ys) = _
    rw [show MSE 6 9 ys = 0 from MSE_three 6 ys]
    norm_num
  have c0 := cinf 0 (by omega)
  have c1 := cinf 1 (by omega)
  have c2 := cinf 2 (by omega)
  have c3 := cinf 3 (by omega)
  have c4 := cinf 4 (by omega)
  have c5 := cinf 5 (by omega)
  have hm : minOverCost ys n 2 9 = Cost.fin 0 := by
    unfold minOverCost
    rw [hcands]
    simp [c0, c1, c2, c3, c4, c5, c6, Cost.minC, Cost.blt]
  constructor
  · rw [Dtab_eq_minOver ys n 2 9 (by omega) hn]
    exact hm
  · rw [Ptab_eq_firstAttain ys n 2 9 (by omega) hn,
      Dtab_eq_minOver ys n 2 9 (by omega) hn, hm,
      if_neg (fun hh => Cost.noConfusion hh)]
    unfold firstAttainIdx
    rw [hcands, hm]
    simp [List.find?, c0, c1, c2, c3, c4, c5, c6]

/-- Upper bound: the written `D[e, l+1]` is at most any scanned candidate's cost. -/
theorem Dtab_le_cost (ys : List ℚ) (n l e s : ℕ) (h1 : l + 1 ≤ e) (h2 : e ≤ n)
    (hs : s ∈ codeCands (l + 1) e) :
    Cost.ble (Dtab ys n e (l + 1)) (costOf ys n l e s) = true := by
  rw [Dtab_eq_minOver ys n l e h1 h2]
  exact foldl_minC_le_mem _ _ (List.mem_map_of_mem _ hs)

/-- Attainment: a finite written `D[e, l+1]` is some scanned candidate's cost. -/
theorem Dtab_attain (ys : List ℚ) (n l e : ℕ) (h1 : l + 1 ≤ e) (h2 : e ≤ n)
    (hne : Dtab ys n e (l + 1) ≠ Cost.inf) :
    ∃ s ∈ codeCands (l + 1) e, costOf ys n l e s = Dtab ys n e (l + 1) := by
  rw [Dtab_eq_minOver ys n l e h1 h2] at hne ⊢
  rcases foldl_minC_attain ((codeCands (l + 1) e).map (costOf ys n l e)) Cost.inf
    with h | h
  · exact absurd h hne
  · obtain ⟨s, hs, hc⟩ := List.mem_map.mp h
    exact ⟨s, hs, hc⟩

theorem Cost.ble_add_right {d : Cost} {w q : ℚ} (h : Cost.ble d (Cost.fin w) = true) :
    Cost.ble (d.add q) (Cost.fin (w + q)) = true := by
  cases d with
  | inf => simp [Cost.ble] at h
  | fin a =>
      simp only [Cost.add, Cost.ble, decide_eq_true_eq] at h ⊢
      linarith

theorem walkP_length (P : ℕ → ℕ → Int) (n : ℕ) :
    ∀ i cur, (walkP P n i cur).length = i := by
  intro i
  induction i with
  | zero => intro cur; rfl
  | succ i ih => intro cur; simp [walkP, ih]

/-- The reconstruction walk lists the `chainP` values (shifted by one), fuel
counting down from the walk's starting layer. -/
theorem walkP_chain (ys : List ℚ) (n k : ℕ) :
    ∀ i, i ≤ k →
      walkP (fun e l => PcolM (fun s e' => MSE s e' ys) n l e) n i
          (chainP ys n k (k - i))
        = (List.range i).map (fun j => chainP ys n k (k - i + j) - 1) := by
  intro i
  induction i with
  | zero => intro _; rfl
  | succ i ih =>
      intro hik
      show (chainP ys n k (k - (i + 1)) - 1)
          :: walkP _ n i (PcolM (fun s e' => MSE s e' ys) n (i + 1)
              (rowIdx n (chainP ys n k (k - (i + 1))))) = _
      have hch : PcolM (fun s e' => MSE s e' ys) n (i + 1)
          (rowIdx n (chainP ys n k (k - (i + 1)))) = chainP ys n k (k - i) := by
        have hk : k - i = (k - (i + 1)) + 1 := by omega
        rw [hk, chainP]
        have h2 : k - (k - (i + 1)) = i + 1 := by omega
        rw [h2]
        rfl
      have hfun : (fun j => chainP ys n k (k - (i + 1) + j) - 1) ∘ Nat.succ
          = fun j => chainP ys n k (k - i + j) - 1 := by
        funext j
        simp only [Function.comp_apply]
        rw [show k - (i + 1) + Nat.succ j = k - i + j from by omega]
      rw [hch, ih (by omega), List.range_succ_eq_map, List.map_cons, List.map_map, hfun]
      simp

/-- `segment` returns the reversed, decremented chain of `P`-entries. -/
theorem segment_eq_walk (ys : List ℚ) (n k : ℕ) :
    segment n k ys = ((List.range k).map (fun j => chainP ys n k j - 1)).reverse := by
  unfold segment segmentM
  congr 1
  have h := walkP_chain ys n k k (le_refl k)
  rw [Nat.sub_self] at h
  rw [show PcolM (fun s e' => MSE s e' ys) n k n = chainP ys n k 0 from rfl, h]
  have hfun : (fun j => chainP ys n k (0 + j) - 1) = fun j => chainP ys n k j - 1 :=
    funext fun j => by rw [Nat.zero_add]
  rw [hfun]

theorem nat_foldl_max_init_le (l : List ℕ) (b : ℕ) : b ≤ l.foldl max b := by
  induction l generalizing b with
  | nil => exact le_refl b
  | cons x t ih => exact le_trans (le_max_left b x) (ih (max b x))

theorem nat_foldl_max_le_mem {x : ℕ} (l : List ℕ) (b : ℕ) (hx : x ∈ l) :
    x ≤ l.foldl max b := by
  induction l generalizing b with
  | nil => cases hx
  | cons y t ih =>
      rcases List.mem_cons.mp hx with rfl | hx'
      · exact le_trans (le_max_right b x) (nat_foldl_max_init_le t (max b x))
      · exact ih (max b y) hx'

/-- The RANSAC fold keeps the incumbent when nothing beats it, and otherwise
returns the hypothesis of the first iteration attaining the maximum count. -/
theorem ransac_foldl_spec (points : List (ℚ × ℚ × ℚ)) (t : ℚ) :
    ∀ (samples : List ℕ) (acc : Option ℚ × ℕ),
      ((countsOf points t samples).foldl max acc.2 = acc.2 →
        samples.foldl (ransacStep points t) acc = acc) ∧
      (acc.2 < (countsOf points t samples).foldl max acc.2 →
        ∃ j, j < samples.length ∧
          (countsOf points t samples).findIdx
              (fun c => c == (countsOf points t samples).foldl max acc.2) = j ∧
          samples.foldl (ransacStep points t) acc
            = (some (sampleZ points (samples.getD j 0)),
                (countsOf points t samples).foldl max acc.2)) := by
  intro samples
  induction samples with
  | nil =>
      intro acc
      exact ⟨fun _ => rfl, fun h => absurd h (by simp [countsOf])⟩
  | cons i rest ih =>
      intro acc
      have hcs : countsOf points t (i :: rest)
          = inlierCount points (sampleZ points i) t :: countsOf points t rest := rfl
      by_cases hb : acc.2 < inlierCount points (sampleZ points i) t
      · -- the first iteration replaces the incumbent
        have hstep : (i :: rest).foldl (ransacStep points t) acc
            = rest.foldl (ransacStep points t)
                (some (sampleZ points i), inlierCount points (sampleZ points i) t) := by
          simp [ransacStep, hb]
        have hmaxb : max acc.2 (inlierCount points (sampleZ points i) t)
            = inlierCount points (sampleZ points i) t := by omega
        have hM : (countsOf points t (i :: rest)).foldl max acc.2
            = (countsOf points t rest).foldl max
                (inlierCount points (sampleZ points i) t) := by
          rw [hcs, List.foldl_cons, hmaxb]
        have hinit := nat_foldl_max_init_le (countsOf points t rest)
          (inlierCount points (sampleZ points i) t)
        constructor
        · intro h
          rw [hM] at h
          omega
        · intro _
          rcases eq_or_lt_of_le hinit with he | hlt
          · -- the head attains the maximum
            refine ⟨0, by simp, ?_, ?_⟩
            · simp only [hcs, List.foldl_cons, hmaxb, List.findIdx_cons]
              rw [← he]
              simp
            · rw [hstep, hM, ← he]
              have h1 := (ih (some (sampleZ points i),
                inlierCount points (sampleZ points i) t)).1 (by simpa using he.symm)
              rw [h1]
              rfl
          · -- the maximum is first attained in the tail
            obtain ⟨j, hjlen, hfind, hfold⟩ := (ih (some (sampleZ points i),
              inlierCount points (sampleZ points i) t)).2 (by simpa using hlt)
            refine ⟨j + 1, by simpa using Nat.succ_lt_succ hjlen, ?_, ?_⟩
            · simp only [hcs, List.foldl_cons, hmaxb, List.findIdx_cons]
              have hne : (inlierCount points (sampleZ points i) t
                  == (countsOf points t rest).foldl max
                    (inlierCount points (sampleZ points i) t)) = false :=
                beq_eq_false_iff_ne.mpr (by omega)
              rw [hne]
              simp only [cond_false]
              have hfind' : (countsOf points t rest).findIdx
                  (fun c => c == (countsOf points t rest).foldl max
                    (inlierCount points (sampleZ points i) t)) = j := by
                simpa using hfind
              rw [hfind']
            · rw [hstep, hM]
              simpa using hfold
      · -- the first iteration keeps the incumbent
        have hstep : (i :: rest).foldl (ransacStep points t) acc
            = rest.foldl (ransacStep points t) acc := by
          simp [ransacStep, hb]
        have hmaxb : max acc.2 (inlierCount points (sampleZ points i) t) = acc.2 := by
          omega
        have hM : (countsOf points t (i :: rest)).foldl max acc.2
            = (countsOf points t rest).foldl max acc.2 := by
          rw [hcs, List.foldl_cons, hmaxb]
        constructor
        · intro h
          rw [hM] at h
          rw [hstep]
          exact (ih acc).1 h
        · intro h
          rw [hM] at h
          obtain ⟨j, hjlen, hfind, hfold⟩ := (ih acc).2 h
          refine ⟨j + 1, by simpa using Nat.succ_lt_succ hjlen, ?_, ?_⟩
          · simp only [hcs, List.foldl_cons, hmaxb, List.findIdx_cons]
            have hne : (inlierCount points (sampleZ points i) t
                == (countsOf points t rest).foldl max acc.2) = false :=
              beq_eq_false_iff_ne.mpr (by omega)
            rw [hne]
            simp only [cond_false]
            rw [hfind]
          · rw [hstep, hM]
            simpa using hfold

/-- Each iteration's hypothesis counts its own sampled point as an inlier. -/
theorem count_self_pos (points : List (ℚ × ℚ × ℚ)) (t : ℚ) (i : ℕ)
    (hi : i < points.length) (ht : 0 < t) :
    1 ≤ inlierCount points (sampleZ points i) t := by
  unfold inlierCount
  have hmem : points.getD i (0, 0, 0) ∈ points := by
    rw [List.getD_eq_getElem points (0, 0, 0) hi]
    exact List.getElem_mem hi
  have hf : points.getD i (0, 0, 0)
      ∈ points.filter (fun p => decide (|zCoord p - sampleZ points i| < t)) := by
    refine List.mem_filter.mpr ⟨hmem, ?_⟩
    simp only [sampleZ, decide_eq_true_eq, sub_self, abs_zero]
    exact ht
  exact List.length_pos_of_mem hf

/-- C1 (counterexample): the specification's recurrence (minimum over every
`start < end` with `end - start ≥ 3`) disagrees with the table `segment`
computes. On the all-zero signal of length 12 at `(end, length) = (12, 4)`,
the code's entry is `np.inf` (its scan stops at `start ≤ end - length = 8`,
and `D[s, 3]` is infinite for every `s ≤ 8`), while the specification's
minimum is 0 (attained at `start = 9`). -/
theorem C1_counterexample :
    Dtab (zsig 12) 12 12 4 = Cost.inf ∧ specMinVal (zsig 12) 12 3 12 = Cost.fin 0 ∧
      Dtab (zsig 12) 12 12 4 ≠ specMinVal (zsig 12) 12 3 12 := by
  with_unfolding_all decide

/-- C1 (amended): for every signal, every layer `length = l + 1 ≥ 1` and every
written cell `length ≤ end ≤ n`, the DP entry `D[end, length]` computed by
`segment` equals the minimum of `D[start, length-1] + residual(start, end)`
over the candidates the code scans — `start ∈ range(end - length + 1)` with
`end - start ≥ 3` (not every `start < end`) — and `P[end, length]` records the
earliest-encountered start attaining that minimum (ascending scan, strict
improvement required), or `-1` when the minimum is `np.inf`; layer 0 is
`D[0, 0] = 0` with every other entry `np.inf`. -/
theorem C1_amended (ys : List ℚ) (n l e : ℕ) (h1 : l + 1 ≤ e) (h2 : e ≤ n) :
    Dtab ys n e (l + 1) = minOverCost ys n l e ∧
    Ptab ys n e (l + 1) = (if Dtab ys n e (l + 1) = Cost.inf then (-1 : Int)
      else firstAttainIdx ys n l e) ∧
    Dtab ys n 0 0 = Cost.fin 0 ∧ Dtab ys n e 0 = Cost.inf := by
  refine ⟨Dtab_eq_minOver ys n l e h1 h2, Ptab_eq_firstAttain ys n l e h1 h2, rfl, ?_⟩
  show DcolM _ n 0 e = _
  rw [DcolM, if_neg (by omega)]

/-- Witness for C1 (amended) at the all-zero signal of length 6,
`length = 2`, `end = 6`. -/
theorem C1_amended_witness :
    Dtab (zsig 6) 6 6 (1 + 1) = minOverCost (zsig 6) 6 1 6 ∧
    Ptab (zsig 6) 6 6 (1 + 1) = (if Dtab (zsig 6) 6 6 (1 + 1) = Cost.inf then (-1 : Int)
      else firstAttainIdx (zsig 6) 6 1 6) ∧
    Dtab (zsig 6) 6 0 0 = Cost.fin 0 ∧ Dtab (zsig 6) 6 6 0 = Cost.inf :=
  C1_amended (zsig 6) 6 1 6 (by decide) (by decide)

/-- C2 (code bug): `segment` never raises any error. The source contains no
`PartitionInfeasible` (or any other) failure path: when `D[n, k]` stays
`np.inf` the reconstruction still runs, reading `P[n, k] = -1` and producing a
list of out-of-range indices. Concretely for `n = 5 < 3k = 6` the call
returns `[-2, -2]` instead of failing. -/
theorem C2_code_bug :
    Dtab (zsig 5) 5 5 2 = Cost.inf ∧ segment 5 2 (zsig 5) = [-2, -2] := by
  with_unfolding_all decide

/-- C3 (counterexample): a feasible call does not return `k - 1` ascending
interior breakpoints. For the all-zero signal with `n = 6`, `k = 2`, the DP is
feasible (`D[6, 2] = 0`) yet `segment` returns the 2-element list `[-2, 2]` —
`k` entries, one of them the out-of-range index `-2` produced by the
reconstruction reading `P` at the wrong layer. -/
theorem C3_counterexample :
    Dtab (zsig 6) 6 6 2 = Cost.fin 0 ∧ segment 6 2 (zsig 6) = [-2, 2] := by
  with_unfolding_all decide

/-- C3 (amended): `segment(n, k, signal)` returns exactly `k` entries (not
`k - 1`), namely the reverse of the walk that starts at `current = P[n, k]`
and, for `i = k` down to `1`, appends `current - 1` and then reads
`current = P[current, i]` with NumPy index semantics (`current = -1` wraps to
row `n`); entry `j` of the result is `chainP (k - 1 - j) - 1`. -/
theorem C3_amended (ys : List ℚ) (n k j : ℕ) (hk : 1 ≤ k) (hj : j < k) :
    (segment n k ys).length = k ∧
    (segment n k ys).getD j 0 = chainP ys n k (k - 1 - j) - 1 := by
  have hw := segment_eq_walk ys n k
  constructor
  · rw [hw]
    simp
  · rw [hw]
    have hlen : (((List.range k).map (fun j => chainP ys n k j - 1)).reverse).length = k := by
      simp
    rw [List.getD_eq_getElem _ _ (by rw [hlen]; exact hj)]
    rw [List.getElem_reverse]
    simp

/-- Witness for C3 (amended) at the all-zero signal, `n = 6`, `k = 2`, `j = 0`. -/
theorem C3_amended_witness :
    (segment 6 2 (zsig 6)).length = 2 ∧
    (segment 6 2 (zsig 6)).getD 0 0 = chainP (zsig 6) 6 2 (2 - 1 - 0) - 1 :=
  C3_amended (zsig 6) 6 2 0 (by decide) (by decide)

/-- C4 (counterexample): for `k = 4` and `n = 3k = 12` the DP does not
succeed: the scan bound `start ≤ end - length` excludes the only feasible
predecessor `start = 9` at layer 4, so `D[12, 4]` stays `np.inf` (for every
signal; shown on the all-zero one). -/
theorem C4_counterexample :
    (zsig 12).length = 3 * 4 ∧ Dtab (zsig 12) 12 12 4 = Cost.inf := by
  with_unfolding_all decide

/-- C4 (amended): for `1 ≤ k ≤ 3` and a signal of length `n = 3k` exactly, the
DP succeeds and finds the unique all-3 partition: every diagonal cell has
`D[3j, j] = 0` and records the predecessor `P[3j, j] = 3(j-1)`, for
`1 ≤ j ≤ k`. For `k ≥ 4`, `D[3k, k]` is `np.inf` instead (see the
counterexample), and the list `segment` returns is distorted by the faulty
reconstruction rather than being the breakpoint list of this partition. -/
theorem C4_amended (ys : List ℚ) (k j : ℕ) (hk1 : 1 ≤ k) (hk3 : k ≤ 3)
    (hj1 : 1 ≤ j) (hjk : j ≤ k) (hlen : ys.length = 3 * k) :
    Dtab ys (3 * k) (3 * j) j = Cost.fin 0 ∧ Ptab ys (3 * k) (3 * j) j = 3 * (j - 1) := by
  have hj3 : j ≤ 3 := le_trans hjk hk3
  interval_cases j
  · -- j = 1
    have h := Dtab_layer_one ys (3 * k) 3 (by omega) (by omega)
    have hD := h.1
    rw [show MSE 0 3 ys = 0 from MSE_three 0 ys] at hD
    constructor
    · show Dtab ys (3 * k) 3 1 = Cost.fin 0
      rw [hD]
      norm_num
    · show Ptab ys (3 * k) 3 1 = 0
      exact h.2
  · -- j = 2
    have h := Dtab_six_two ys (3 * k) (by omega)
    exact ⟨h.1, h.2⟩
  · -- j = 3
    have h := Dtab_nine_three ys (3 * k) (by omega)
    exact ⟨h.1, h.2⟩

/-- Witness for C4 (amended) at the all-zero signal with `k = j = 1`. -/
theorem C4_amended_witness :
    Dtab (zsig 3) (3 * 1) (3 * 1) 1 = Cost.fin 0 ∧
    Ptab (zsig 3) (3 * 1) (3 * 1) 1 = 3 * (1 - 1) :=
  C4_amended (zsig 3) 1 1 (by decide) (by decide) (by decide) (by decide) (by decide)

/-- C5 (code bug): the fit/MSE caches are process-wide (module-level
dictionaries keyed only by `(start, end)`), not scoped to one call, so the
Path depends on earlier calls. Running `segment(7, 2, ·)` on `sigA` first
fills the caches; a subsequent call on `sigB` then returns `[-2, 3]`, while
the same call with pristine caches returns `[-2, 2]`. -/
theorem C5_code_bug :
    segmentCached (parabCacheAfter sigA 7) (mseCacheAfter sigA 7) 7 2 sigB = [-2, 3] ∧
    segment 7 2 sigB = [-2, 2] ∧
    segmentCached (parabCacheAfter sigA 7) (mseCacheAfter sigA 7) 7 2 sigB
      ≠ segment 7 2 sigB := by
  with_unfolding_all decide

/-- C6 (counterexample): increasing the segment count can increase the optimal
total residual in this implementation. On the all-zero signal with `n = 12`,
`D[12, 3] = 0` but `D[12, 4] = np.inf` (the layer-4 scan bound excludes the
only feasible predecessor), so `D[n, k+1] ≤ D[n, k]` fails at `k = 3`. -/
theorem C6_counterexample :
    Dtab (zsig 12) 12 12 3 = Cost.fin 0 ∧ Dtab (zsig 12) 12 12 4 = Cost.inf ∧
    Cost.ble (Dtab (zsig 12) 12 12 4) (Dtab (zsig 12) 12 12 3) = false := by
  with_unfolding_all decide

/-- C6 (amended): residual monotonicity holds on the range where the code's
scan bound does not interfere: for every signal of length `n`, every
`1 ≤ k ≤ 2` with `3(k+1) ≤ n`, the DP table satisfies
`D[n, k+1] ≤ D[n, k]`. (For `k ≥ 3` it fails, see the counterexample.) -/
theorem C6_amended (ys : List ℚ) (n k : ℕ) (hk1 : 1 ≤ k) (hk2 : k ≤ 2)
    (hn : 3 * (k + 1) ≤ n) (hlen : ys.length = n) :
    Cost.ble (Dtab ys n n (k + 1)) (Dtab ys n n k) = true := by
  interval_cases k
  · -- k = 1 : D[n, 2] ≤ D[n, 1] = MSE(0, n)
    have h1 := (Dtab_layer_one ys n n (by omega) (le_refl n)).1
    have h3c : (3 : ℕ) ∈ codeCands 2 n := mem_codeCands.mpr ⟨by omega, by omega⟩
    have hle := Dtab_le_cost ys n 1 n 3 (by omega) (le_refl n) h3c
    have hc3 : costOf ys n 1 n 3 = Cost.fin ((0 + MSE 0 3 ys) + MSE 3 n ys) := by
      unfold costOf
      rw [(Dtab_layer_one ys n 3 (by omega) (by omega)).1]
      rfl
    rw [hc3] at hle
    rw [h1]
    refine Cost.ble_trans hle ?_
    simp only [Cost.ble, decide_eq_true_eq]
    have hm1 : MSE 0 3 ys = 0 := MSE_three 0 ys
    have hm2 : MSE 3 n ys ≤ MSE 0 n ys := MSE_suffix_le 0 3 n ys (by omega) (by omega)
    linarith
  · -- k = 2 : D[n, 3] ≤ D[n, 2]
    by_cases hD2 : Dtab ys n n 2 = Cost.inf
    · rw [show Dtab ys n n (2 + 1) = Dtab ys n n 3 from rfl, hD2]
      cases Dtab ys n n 3 <;> rfl
    · obtain ⟨s, hs, hcost⟩ := Dtab_attain ys n 1 n (by omega) (le_refl n) hD2
      have hmem := mem_codeCands.mp hs
      have hs3 : 3 ≤ s := by
        by_contra hlt
        push_neg at hlt
        have hz : Dtab ys n s 1 = Cost.inf := Dtab_inf_of_lt ys n 1 s (by omega)
        unfold costOf at hcost
        rw [hz] at hcost
        exact hD2 hcost.symm
      have hsval := (Dtab_layer_one ys n s hs3 (by omega)).1
      have hcost2 : Dtab ys n n 2 = Cost.fin ((0 + MSE 0 s ys) + MSE s n ys) := by
        rw [← hcost]
        unfold costOf
        rw [hsval]
        rfl
      by_cases hs6 : s ≤ 6
      · have h6c : (6 : ℕ) ∈ codeCands 3 n := mem_codeCands.mpr ⟨by omega, by omega⟩
        have hle := Dtab_le_cost ys n 2 n 6 (by omega) (le_refl n) h6c
        have hc6 : costOf ys n 2 n 6 = Cost.fin (0 + MSE 6 n ys) := by
          unfold costOf
          rw [(Dtab_six_two ys n (by omega)).1]
          rfl
        rw [hc6] at hle
        rw [hcost2]
        refine Cost.ble_trans hle ?_
        simp only [Cost.ble, decide_eq_true_eq]
        have hm1 : MSE 6 n ys ≤ MSE s n ys := MSE_suffix_le s 6 n ys hs6 (by omega)
        have hm2 : 0 ≤ MSE 0 s ys := MSE_nonneg 0 s ys
        linarith
      · push_neg at hs6
        have hsc : s ∈ codeCands 3 n := mem_codeCands.mpr ⟨by omega, by omega⟩
        have hle := Dtab_le_cost ys n 2 n s (by omega) (le_refl n) hsc
        have h3c : (3 : ℕ) ∈ codeCands 2 s := mem_codeCands.mpr ⟨by omega, by omega⟩
        have hle2 := Dtab_le_cost ys n 1 s 3 (by omega) (by omega) h3c
        have hc3 : costOf ys n 1 s 3 = Cost.fin ((0 + MSE 0 3 ys) + MSE 3 s ys) := by
          unfold costOf
          rw [(Dtab_layer_one ys n 3 (by omega) (by omega)).1]
          rfl
        rw [hc3] at hle2
        rw [hcost2]
        refine Cost.ble_trans hle ?_
        have hstep : Cost.ble (costOf ys n 2 n s)
            (Cost.fin ((((0 : ℚ) + MSE 0 3 ys) + MSE 3 s ys) + MSE s n ys)) = true :=
          Cost.ble_add_right hle2
        refine Cost.ble_trans hstep ?_
        simp only [Cost.ble, decide_eq_true_eq]
        have hm1 : MSE 0 3 ys = 0 := MSE_three 0 ys
        have hm2 : MSE 3 s ys ≤ MSE 0 s ys := MSE_suffix_le 0 3 s ys (by omega) (by omega)
        linarith

/-- Witness for C6 (amended) at the all-zero signal with `n = 6`, `k = 1`. -/
theorem C6_amended_witness :
    Cost.ble (Dtab (zsig 6) 6 6 (1 + 1)) (Dtab (zsig 6) 6 6 1) = true :=
  C6_amended (zsig 6) 6 1 (by decide) (by decide) (by decide) (by decide)

/-- C7: with the random draws modelled as the index list `samples`, an
iteration's inlier is exactly a point whose z differs from the sampled z by
strictly less than `threshold` (definition `inlierCount`), and `ransac_z_fit`
returns the sampled z and inlier count of the first iteration attaining the
maximum count over all iterations: later iterations with an equal count never
overwrite (the update requires a strictly larger count). -/
theorem C7_first_max (points : List (ℚ × ℚ × ℚ)) (samples : List ℕ) (t : ℚ)
    (hne : samples ≠ []) (hidx : ∀ i ∈ samples, i < points.length) (ht : 0 < t) :
    ransac_z_fit points samples t
      = (some (sampleZ points (samples.getD (firstMaxPos points t samples) 0)),
         maxCount points t samples) := by
  obtain ⟨i, rest, rfl⟩ := List.exists_cons_of_ne_nil hne
  have hc1 : 1 ≤ inlierCount points (sampleZ points i) t :=
    count_self_pos points t i (hidx i (List.mem_cons_self i rest)) ht
  have hmem : inlierCount points (sampleZ points i) t ∈ countsOf points t (i :: rest) := by
    show _ ∈ inlierCount points (sampleZ points i) t :: countsOf points t rest
    exact List.mem_cons_self _ _
  have hM : 0 < (countsOf points t (i :: rest)).foldl max 0 :=
    lt_of_lt_of_le hc1 (nat_foldl_max_le_mem _ 0 hmem)
  obtain ⟨j, hjlen, hfind, hfold⟩ :=
    (ransac_foldl_spec points t (i :: rest) (none, 0)).2 (by simpa using hM)
  show (i :: rest).foldl (ransacStep points t) (none, 0) = _
  rw [hfold]
  have hfp : firstMaxPos points t (i :: rest) = j := hfind
  rw [hfp]
  rfl

/-- Witness for C7 at two points sharing no inliers and two iterations. -/
theorem C7_first_max_witness :
    ransac_z_fit [(0, 0, 0), (0, 0, 1)] [0, 1] (1 / 2)
      = (some (sampleZ [(0, 0, 0), (0, 0, 1)]
          (([0, 1] : List ℕ).getD (firstMaxPos [(0, 0, 0), (0, 0, 1)] (1 / 2) [0, 1]) 0)),
         maxCount [(0, 0, 0), (0, 0, 1)] (1 / 2) [0, 1]) :=
  C7_first_max [(0, 0, 0), (0, 0, 1)] [0, 1] (1 / 2) (by decide) (by decide) (by norm_num)

/-- C8: for a non-empty iteration list over valid indices and a positive
threshold, `ransac_z_fit` never returns the "no estimate" signal: the result
is the z of some sampled point together with an inlier count of at least 1
(each hypothesis counts its own sample as an inlier). -/
theorem C8_total (points : List (ℚ × ℚ × ℚ)) (samples : List ℕ) (t : ℚ)
    (hne : samples ≠ []) (hidx : ∀ i ∈ samples, i < points.length) (ht : 0 < t) :
    (ransac_z_fit points samples t).1.isSome = true ∧
    1 ≤ (ransac_z_fit points samples t).2 ∧
    ∃ i ∈ samples, (ransac_z_fit points samples t).1 = some (sampleZ points i) := by
  obtain ⟨i, rest, rfl⟩ := List.exists_cons_of_ne_nil hne
  have hc1 : 1 ≤ inlierCount points (sampleZ points i) t :=
    count_self_pos points t i (hidx i (List.mem_cons_self i rest)) ht
  have hmem : inlierCount points (sampleZ points i) t ∈ countsOf points t (i :: rest) := by
    show _ ∈ inlierCount points (sampleZ points i) t :: countsOf points t rest
    exact List.mem_cons_self _ _
  have hM : 0 < (countsOf points t (i :: rest)).foldl max 0 :=
    lt_of_lt_of_le hc1 (nat_foldl_max_le_mem _ 0 hmem)
  obtain ⟨j, hjlen, hfind, hfold⟩ :=
    (ransac_foldl_spec points t (i :: rest) (none, 0)).2 (by simpa using hM)
  have hres : ransac_z_fit points (i :: rest) t
      = (some (sampleZ points ((i :: rest).getD j 0)),
         (countsOf points t (i :: rest)).foldl max 0) := by
    show (i :: rest).foldl (ransacStep points t) (none, 0) = _
    exact hfold
  refine ⟨by rw [hres]; rfl, ?_, ?_⟩
  · rw [hres]
    exact le_trans hc1 (nat_foldl_max_le_mem _ 0 hmem)
  · refine ⟨(i :: rest).getD j 0, ?_, by rw [hres]⟩
    rw [List.getD_eq_getElem _ _ hjlen]
    exact List.getElem_mem hjlen

/-- Witness for C8 at a single point and a single iteration. -/
theorem C8_total_witness :
    (ransac_z_fit [((1 : ℚ), (2 : ℚ), (5 : ℚ))] [0] 1).1.isSome = true ∧
    1 ≤ (ransac_z_fit [((1 : ℚ), (2 : ℚ), (5 : ℚ))] [0] 1).2 ∧
    ∃ i ∈ ([0] : List ℕ), (ransac_z_fit [((1 : ℚ), (2 : ℚ), (5 : ℚ))] [0] 1).1
      = some (sampleZ [((1 : ℚ), (2 : ℚ), (5 : ℚ))] i) :=
  C8_total [((1 : ℚ), (2 : ℚ), (5 : ℚ))] [0] 1 (by decide) (by decide) (by decide)

/-- C9: for every point set, 4-entry path and pair of heights, the box built
by `bounding_box_3d` has exactly 8 vertices; vertices 0-3 carry z exactly
`floorZ`, and for each `i < 4` vertex `i + 4` has the same x and y as vertex
`i` with z exactly `ceilingZ` — the two quadrilaterals list the corners in
the same order (lower-left, lower-right, upper-right, upper-left). -/
theorem C9_box_structure (points : List (ℚ × ℚ × ℚ)) (path : List Int)
    (floorZ ceilingZ : ℚ) (hlen : path.length = 4) :
    (bounding_box_3d_core (selectPath points path) floorZ ceilingZ).length = 8 ∧
    (vtx (bounding_box_3d_core (selectPath points path) floorZ ceilingZ) 0).2.2 = floorZ ∧
    (vtx (bounding_box_3d_core (selectPath points path) floorZ ceilingZ) 1).2.2 = floorZ ∧
    (vtx (bounding_box_3d_core (selectPath points path) floorZ ceilingZ) 2).2.2 = floorZ ∧
    (vtx (bounding_box_3d_core (selectPath points path) floorZ ceilingZ) 3).2.2 = floorZ ∧
    vtx (bounding_box_3d_core (selectPath points path) floorZ ceilingZ) 4
      = ((vtx (bounding_box_3d_core (selectPath points path) floorZ ceilingZ) 0).1,
         (vtx (bounding_box_3d_core (selectPath points path) floorZ ceilingZ) 0).2.1,
         ceilingZ) ∧
    vtx (bounding_box_3d_core (selectPath points path) floorZ ceilingZ) 5
      = ((vtx (bounding_box_3d_core (selectPath points path) floorZ ceilingZ) 1).1,
         (vtx (bounding_box_3d_core (selectPath points path) floorZ ceilingZ) 1).2.1,
         ceilingZ) ∧
    vtx (bounding_box_3d_core (selectPath points path) floorZ ceilingZ) 6
      = ((vtx (bounding_box_3d_core (selectPath points path) floorZ ceilingZ) 2).1,
         (vtx (bounding_box_3d_core (selectPath points path) floorZ ceilingZ) 2).2.1,
         ceilingZ) ∧
    vtx (bounding_box_3d_core (selectPath points path) floorZ ceilingZ) 7
      = ((vtx (bounding_box_3d_core (selectPath points path) floorZ ceilingZ) 3).1,
         (vtx (bounding_box_3d_core (selectPath points path) floorZ ceilingZ) 3).2.1,
         ceilingZ) :=
  ⟨rfl, rfl, rfl, rfl, rfl, rfl, rfl, rfl, rfl⟩

/-- Witness for C9 at four unit-square corner points. -/
theorem C9_box_structure_witness :
    (bounding_box_3d_core (selectPath [(0, 0, 0), (1, 0, 0), (1, 1, 0), (0, 1, 0)]
        [0, 1, 2, 3]) 0 5).length = 8 ∧
    (vtx (bounding_box_3d_core (selectPath [(0, 0, 0), (1, 0, 0), (1, 1, 0), (0, 1, 0)]
        [0, 1, 2, 3]) 0 5) 0).2.2 = 0 ∧
    (vtx (bounding_box_3d_core (selectPath [(0, 0, 0), (1, 0, 0), (1, 1, 0), (0, 1, 0)]
        [0, 1, 2, 3]) 0 5) 1).2.2 = 0 ∧
    (vtx (bounding_box_3d_core (selectPath [(0, 0, 0), (1, 0, 0), (1, 1, 0), (0, 1, 0)]
        [0, 1, 2, 3]) 0 5) 2).2.2 = 0 ∧
    (vtx (bounding_box_3d_core (selectPath [(0, 0, 0), (1, 0, 0), (1, 1, 0), (0, 1, 0)]
        [0, 1, 2, 3]) 0 5) 3).2.2 = 0 ∧
    vtx (bounding_box_3d_core (selectPath [(0, 0, 0), (1, 0, 0), (1, 1, 0), (0, 1, 0)]
        [0, 1, 2, 3]) 0 5) 4
      = ((vtx (bounding_box_3d_core (selectPath [(0, 0, 0), (1, 0, 0), (1, 1, 0), (0, 1, 0)]
          [0, 1, 2, 3]) 0 5) 0).1,
         (vtx (bounding_box_3d_core (selectPath [(0, 0, 0), (1, 0, 0), (1, 1, 0), (0, 1, 0)]
          [0, 1, 2, 3]) 0 5) 0).2.1, 5) ∧
    vtx (bounding_box_3d_core (selectPath [(0, 0, 0), (1, 0, 0), (1, 1, 0), (0, 1, 0)]
        [0, 1, 2, 3]) 0 5) 5
      = ((vtx (bounding_box_3d_core (selectPath [(0, 0, 0), (1, 0, 0), (1, 1, 0), (0, 1, 0)]
          [0, 1, 2, 3]) 0 5) 1).1,
         (vtx (bounding_box_3d_core (selectPath [(0, 0, 0), (1, 0, 0), (1, 1, 0), (0, 1, 0)]
          [0, 1, 2, 3]) 0 5) 1).2.1, 5) ∧
    vtx (bounding_box_3d_core (selectPath [(0, 0, 0), (1, 0, 0), (1, 1, 0), (0, 1, 0)]
        [0, 1, 2, 3]) 0 5) 6
      = ((vtx (bounding_box_3d_core (selectPath [(0, 0, 0), (1, 0, 0), (1, 1, 0), (0, 1, 0)]
          [0, 1, 2, 3]) 0 5) 2).1,
         (vtx (bounding_box_3d_core (selectPath [(0, 0, 0), (1, 0, 0), (1, 1, 0), (0, 1, 0)]
          [0, 1, 2, 3]) 0 5) 2).2.1, 5) ∧
    vtx (bounding_box_3d_core (selectPath [(0, 0, 0), (1, 0, 0), (1, 1, 0), (0, 1, 0)]
        [0, 1, 2, 3]) 0 5) 7
      = ((vtx (bounding_box_3d_core (selectPath [(0, 0, 0), (1, 0, 0), (1, 1, 0), (0, 1, 0)]
          [0, 1, 2, 3]) 0 5) 3).1,
         (vtx (bounding_box_3d_core (selectPath [(0, 0, 0), (1, 0, 0), (1, 1, 0), (0, 1, 0)]
          [0, 1, 2, 3]) 0 5) 3).2.1, 5) :=
  C9_box_structure [(0, 0, 0), (1, 0, 0), (1, 1, 0), (0, 1, 0)] [0, 1, 2, 3] 0 5 (by decide)

/-- C10: for every signal of length `n ≥ 3` and `k = 1`, `segment` returns the
single-element path `[-1]`: the sole feasible predecessor recorded in
`P[n, 1]` is `start = 0`, and the reconstruction's `- 1` shift turns it into
the negative index `-1`, outside the signal's valid index range. -/
theorem C10_k1_path (ys : List ℚ) (n : ℕ) (h3 : 3 ≤ n) (hlen : ys.length = n) :
    segment n 1 ys = [-1] := by
  have hP := (Dtab_layer_one ys n n h3 (le_refl n)).2
  show ((PcolM (fun s e' => MSE s e' ys) n 1 n - 1)
      :: walkP (fun e l => PcolM (fun s e' => MSE s e' ys) n l e) n 0
        (PcolM (fun s e' => MSE s e' ys) n 1
          (rowIdx n (PcolM (fun s e' => MSE s e' ys) n 1 n)))).reverse = _
  rw [show PcolM (fun s e' => MSE s e' ys) n 1 n = Ptab ys n n 1 from rfl, hP]
  rfl

/-- Witness for C10 at the all-zero signal of length 3. -/
theorem C10_k1_path_witness : segment 3 1 (zsig 3) = [-1] :=
  C10_k1_path (zsig 3) 3 (by decide) (by decide)

end Project
